import Mathlib

/-!
Verification of the in-memory single-table database in `src/database.ts`:
typed values, per-column sorted indices with binary-search lookups, and the
query pipeline (validate → filter → project).  JavaScript runtime features the
source relies on are modelled explicitly: `Array.prototype.sort` as a stable
sort, object property lookup including the `Object.prototype` chain, and
`parseInt` producing IEEE-754 doubles.
-/

namespace MiniDb

/-- A cell value: `string | number` in the source.  Numbers reachable from
loading are integers (results of `parseInt` on digit strings), so they are
modelled as `Int`. -/
inductive Value where
  | str : String → Value
  | num : Int → Value
deriving DecidableEq

/-- `typeof` of a value, as the source's `ColumnType` enum. -/
inductive ColumnType where
  | string
  | number
deriving DecidableEq

def Value.typeOf : Value → ColumnType
  | .str _ => .string
  | .num _ => .number

/-- The JavaScript `<` comparison on two cell values.  Same-variant
comparisons are numeric / lexicographic.  A cross-variant comparison never
occurs in reachable code (every indexed column is single-variant, enforced at
load time, and filter operands are validated against the declared column
type); it is modelled as incomparable. -/
def Value.lt : Value → Value → Bool
  | .num a, .num b => decide (a < b)
  | .str a, .str b => decide (a < b)
  | _, _ => false

theorem Value.ltIrrefl (x : Value) : Value.lt x x = false := by
  cases x <;> simp [Value.lt]

theorem Value.ltAsymm {x y : Value} (h : Value.lt x y = true) :
    Value.lt y x = false := by
  cases x with
  | str a =>
    cases y with
    | str b =>
      simp only [Value.lt, decide_eq_true_eq] at h
      simp only [Value.lt, decide_eq_false_iff_not]
      exact lt_asymm h
    | num b => simp [Value.lt] at h
  | num a =>
    cases y with
    | str b => simp [Value.lt] at h
    | num b =>
      simp only [Value.lt, decide_eq_true_eq] at h
      simp only [Value.lt, decide_eq_false_iff_not]
      omega

theorem Value.ltTrans {x y z : Value} (h1 : Value.lt x y = true)
    (h2 : Value.lt y z = true) : Value.lt x z = true := by
  cases x with
  | str a =>
    cases y with
    | str b =>
      cases z with
      | str c =>
        simp only [Value.lt, decide_eq_true_eq] at h1 h2 ⊢
        exact lt_trans h1 h2
      | num c => simp [Value.lt] at h2
    | num b => simp [Value.lt] at h1
  | num a =>
    cases y with
    | str b => simp [Value.lt] at h1
    | num b =>
      cases z with
      | str c => simp [Value.lt] at h2
      | num c =>
        simp only [Value.lt, decide_eq_true_eq] at h1 h2 ⊢
        omega

theorem Value.ltTotal {x y : Value} (h : x.typeOf = y.typeOf) :
    Value.lt x y = true ∨ Value.lt y x = true ∨ x = y := by
  cases x with
  | str a =>
    cases y with
    | str b =>
      rcases lt_trichotomy a b with h1 | h1 | h1
      · exact Or.inl (by simp only [Value.lt, decide_eq_true_eq]; exact h1)
      · exact Or.inr (Or.inr (by rw [h1]))
      · exact Or.inr (Or.inl (by simp only [Value.lt, decide_eq_true_eq]; exact h1))
    | num b => simp [Value.typeOf] at h
  | num a =>
    cases y with
    | str b => simp [Value.typeOf] at h
    | num b =>
      rcases lt_trichotomy a b with h1 | h1 | h1
      · exact Or.inl (by simp only [Value.lt, decide_eq_true_eq]; exact h1)
      · exact Or.inr (Or.inr (by rw [h1]))
      · exact Or.inr (Or.inl (by simp only [Value.lt, decide_eq_true_eq]; exact h1))

/-- A record: a JavaScript object, modelled as an association list from
column name to value (keys of reachable rows are distinct). -/
def Row := List (String × Value)

instance : DecidableEq Row := by
  unfold Row
  infer_instance

/-- Own-property read `row[c]`: `none` models `undefined`. -/
def rowGet (r : Row) (c : String) : Option Value :=
  List.lookup c r

/-- `a[column] < b[column]` as evaluated by the source's sort comparator. -/
def cellLtB (c : String) (a b : Row) : Bool :=
  match rowGet a c, rowGet b c with
  | some x, some y => Value.lt x y
  | _, _ => false

/-- The non-strict order induced by the comparator for column `c`:
`a` may precede `b` exactly when the comparator does not return `1`,
i.e. when `¬(a[c] > b[c])`. -/
def rowLe (c : String) (a b : Row) : Bool :=
  !cellLtB c b a

/-!
`Array.prototype.sort` with a consistent comparator is required by
ECMAScript to be a stable sort; the algorithm itself is implementation
defined.  It is modelled as a stable insertion sort.
-/

/-- Insert `x` into `ys` immediately before the first element `y` with
`le x y`; later equal elements therefore stay behind `x` (stability). -/
def insertSorted (le : α → α → Bool) (x : α) : List α → List α
  | [] => [x]
  | y :: ys => if le x y then x :: y :: ys else y :: insertSorted le x ys

/-- Stable sort by the boolean relation `le`. -/
def stableSort (le : α → α → Bool) : List α → List α
  | [] => []
  | x :: xs => insertSorted le x (stableSort le xs)

theorem insertSorted_perm (le : α → α → Bool) (x : α) (ys : List α) :
    (insertSorted le x ys).Perm (x :: ys) := by
  induction ys with
  | nil => simp [insertSorted]
  | cons y ys ih =>
    simp only [insertSorted]
    by_cases h : le x y = true
    · simp [h]
    · simp only [h, if_neg]
      exact (ih.cons y).trans (List.Perm.swap x y ys)

theorem stableSort_perm (le : α → α → Bool) (l : List α) :
    (stableSort le l).Perm l := by
  induction l with
  | nil => simp [stableSort]
  | cons x xs ih =>
    exact (insertSorted_perm le x (stableSort le xs)).trans (ih.cons x)

theorem stableSort_length (le : α → α → Bool) (l : List α) :
    (stableSort le l).length = l.length :=
  (stableSort_perm le l).length_eq

theorem mem_insertSorted {le : α → α → Bool} {x z : α} {ys : List α} :
    z ∈ insertSorted le x ys ↔ z = x ∨ z ∈ ys := by
  rw [(insertSorted_perm le x ys).mem_iff, List.mem_cons]

theorem mem_stableSort {le : α → α → Bool} {z : α} {l : List α} :
    z ∈ stableSort le l ↔ z ∈ l :=
  (stableSort_perm le l).mem_iff

/-- Inserting into a `le`-sorted list keeps it sorted, provided `le` is
total between `x` and the list and transitive among the elements involved. -/
theorem pairwise_insertSorted {le : α → α → Bool} {x : α} {ys : List α}
    (htr : ∀ a b c, a ∈ x :: ys → b ∈ x :: ys → c ∈ x :: ys →
      le a b = true → le b c = true → le a c = true)
    (hto : ∀ y ∈ ys, le x y = true ∨ le y x = true)
    (h : ys.Pairwise (fun a b => le a b = true)) :
    (insertSorted le x ys).Pairwise (fun a b => le a b = true) := by
  induction ys with
  | nil => simp [insertSorted]
  | cons y ys ih =>
    simp only [insertSorted]
    by_cases hxy : le x y = true
    · simp only [hxy, if_pos]
      refine List.Pairwise.cons ?_ h
      intro z hz
      rcases List.mem_cons.mp hz with hz | hz
      · rw [hz]; exact hxy
      · have hyz : le y z = true := (List.pairwise_cons.mp h).1 z hz
        exact htr x y z (by simp) (by simp) (by simp [hz]) hxy hyz
    · simp only [hxy, if_neg, Bool.not_eq_true]
      have hyx : le y x = true := by
        rcases hto y (by simp) with h1 | h1
        · exact absurd h1 hxy
        · exact h1
      have hys : ys.Pairwise (fun a b => le a b = true) :=
        (List.pairwise_cons.mp h).2
      refine List.Pairwise.cons ?_ ?_
      · intro z hz
        rcases mem_insertSorted.mp hz with hz | hz
        · rw [hz]; exact hyx
        · exact (List.pairwise_cons.mp h).1 z hz
      · refine ih ?_ ?_ hys
        · intro a b c ha hb hc
          refine htr a b c ?_ ?_ ?_
          · rcases List.mem_cons.mp ha with ha | ha
            · simp [ha]
            · simp [ha]
          · rcases List.mem_cons.mp hb with hb | hb
            · simp [hb]
            · simp [hb]
          · rcases List.mem_cons.mp hc with hc | hc
            · simp [hc]
            · simp [hc]
        · intro z hz
          exact hto z (by simp [hz])

/-- `stableSort` sorts, provided `le` is transitive and total on the list's
elements (globally it need not be: rows missing the column are
incomparable, but such rows never reach a constructed index). -/
theorem pairwise_stableSort {le : α → α → Bool} {l : List α}
    (htr : ∀ a b c, a ∈ l → b ∈ l → c ∈ l →
      le a b = true → le b c = true → le a c = true)
    (hto : ∀ a b, a ∈ l → b ∈ l → le a b = true ∨ le b a = true) :
    (stableSort le l).Pairwise (fun a b => le a b = true) := by
  induction l with
  | nil => simp [stableSort]
  | cons x xs ih =>
    simp only [stableSort]
    refine pairwise_insertSorted ?_ ?_ ?_
    · intro a b c ha hb hc
      have hmem : ∀ z, z ∈ x :: stableSort le xs → z ∈ x :: xs := by
        intro z hz
        rcases List.mem_cons.mp hz with hz | hz
        · simp [hz]
        · simp [List.mem_cons, mem_stableSort.mp hz]
      exact htr a b c (hmem a ha) (hmem b hb) (hmem c hc)
    · intro y hy
      have : y ∈ xs := mem_stableSort.mp hy
      exact hto x y (by simp) (by simp [this])
    · refine ih ?_ ?_
      · intro a b c ha hb hc
        exact htr a b c (by simp [ha]) (by simp [hb]) (by simp [hc])
      · intro a b ha hb
        exact hto a b (by simp [ha]) (by simp [hb])

/-- Stability, phrased through `filter`: if all elements satisfying `p` are
mutually `le`-compatible, inserting keeps the `p`-subsequence intact. -/
theorem filter_insertSorted {le : α → α → Bool} {p : α → Bool} {x : α}
    {ys : List α} (hp : ∀ y ∈ ys, p x = true → p y = true → le x y = true) :
    (insertSorted le x ys).filter p =
      if p x then x :: ys.filter p else ys.filter p := by
  induction ys with
  | nil =>
    simp only [insertSorted, List.filter]
    by_cases hx : p x = true <;> simp [hx]
  | cons y ys ih =>
    simp only [insertSorted]
    by_cases hxy : le x y = true
    · simp only [hxy, if_pos, List.filter]
      by_cases hx : p x = true <;> simp [hx, List.filter]
    · simp only [hxy, if_neg, Bool.not_eq_true, List.filter_cons]
      have ihe := ih (fun z hz => hp z (by simp [hz]))
      by_cases hy : p y = true
      · have hx : p x = false := by
          by_cases hx : p x = true
          · exact absurd (hp y (by simp) hx hy) hxy
          · simpa using hx
        simp [hy, ihe, hx]
      · simp only [Bool.not_eq_true] at hy
        simp [hy, ihe]

/-- `stableSort` is stable: the subsequence of elements satisfying `p` is
preserved, whenever `p`-elements are mutually `le`-compatible (true for
"value in column `c` equals `v`", since the comparator returns `0` there). -/
theorem filter_stableSort {le : α → α → Bool} {p : α → Bool} {l : List α}
    (hp : ∀ a b, a ∈ l → b ∈ l → p a = true → p b = true → le a b = true) :
    (stableSort le l).filter p = l.filter p := by
  induction l with
  | nil => simp [stableSort]
  | cons x xs ih =>
    simp only [stableSort]
    rw [filter_insertSorted]
    · rw [ih (fun a b ha hb => hp a b (by simp [ha]) (by simp [hb]))]
      by_cases hx : p x = true
      · simp [hx, List.filter_cons]
      · simp only [Bool.not_eq_true] at hx
        simp [hx, List.filter_cons]
    · intro y hy hx hpy
      have : y ∈ xs := mem_stableSort.mp hy
      exact hp x y (by simp) (by simp [this]) hx hpy

/-!  The per-column index (`class ColumnIndex` in the source). -/

structure ColumnIndex where
  column : String
  rows : List Row
deriving DecidableEq

/-- The `ColumnIndex` constructor: a stable ascending sort of a copy of the
record list by the comparator on `column`. -/
def ColumnIndex.make (column : String) (rows : List Row) : ColumnIndex :=
  { column := column, rows := stableSort (rowLe column) rows }

/-- `this.rows[i][this.column]` as read inside the binary searches. -/
def ColumnIndex.valueAt (ci : ColumnIndex) (i : Nat) : Option Value :=
  match ci.rows[i]? with
  | some r => rowGet r ci.column
  | none => none

/-- `row[this.column] < value` (`undefined` compares false). -/
def oltv : Option Value → Value → Bool
  | some x, v => Value.lt x v
  | none, _ => false

/-- `row[this.column] > value` (`undefined` compares false). -/
def ogtv : Option Value → Value → Bool
  | some x, v => Value.lt v x
  | none, _ => false

/-!
The three binary-search loops of the source keep an inclusive `left`/`right`
pair of JavaScript numbers (`right` starts at `length - 1`, possibly `-1`)
with guard `left <= right` and `mid = Math.floor((left + right) / 2)`.  They
are modelled with `lo = left` and an exclusive `hi = right + 1`, so the guard
is `lo < hi` and `mid = (lo + hi - 1) / 2`; both sides visit the same states.
-/

/-- Loop of `findFirstEqual`. -/
def ColumnIndex.findFirstEqualGo (ci : ColumnIndex) (v : Value)
    (lo hi : Nat) (res : Option Nat) : Option Nat :=
  if h : lo < hi then
    let mid := (lo + hi - 1) / 2
    if oltv (ci.valueAt mid) v then
      ci.findFirstEqualGo v (mid + 1) hi res
    else if ogtv (ci.valueAt mid) v then
      ci.findFirstEqualGo v lo mid res
    else
      ci.findFirstEqualGo v lo mid (some mid)
  else res
termination_by hi - lo
decreasing_by all_goals omega

/-- `findFirstEqual`: `none` models the `-1` result. -/
def ColumnIndex.findFirstEqual (ci : ColumnIndex) (v : Value) : Option Nat :=
  ci.findFirstEqualGo v 0 ci.rows.length none

/-- Loop of `findLastEqual`. -/
def ColumnIndex.findLastEqualGo (ci : ColumnIndex) (v : Value)
    (lo hi : Nat) (res : Option Nat) : Option Nat :=
  if h : lo < hi then
    let mid := (lo + hi - 1) / 2
    if oltv (ci.valueAt mid) v then
      ci.findLastEqualGo v (mid + 1) hi res
    else if ogtv (ci.valueAt mid) v then
      ci.findLastEqualGo v lo mid res
    else
      ci.findLastEqualGo v (mid + 1) hi (some mid)
  else res
termination_by hi - lo
decreasing_by all_goals omega

/-- `findLastEqual`: `none` models the `-1` result. -/
def ColumnIndex.findLastEqual (ci : ColumnIndex) (v : Value) : Option Nat :=
  ci.findLastEqualGo v 0 ci.rows.length none

/-- Loop of `findFirstGreaterThan`. -/
def ColumnIndex.findFirstGreaterThanGo (ci : ColumnIndex) (v : Value)
    (lo hi : Nat) (res : Option Nat) : Option Nat :=
  if h : lo < hi then
    let mid := (lo + hi - 1) / 2
    if ogtv (ci.valueAt mid) v then
      ci.findFirstGreaterThanGo v lo mid (some mid)
    else
      ci.findFirstGreaterThanGo v (mid + 1) hi res
  else res
termination_by hi - lo
decreasing_by all_goals omega

/-- `findFirstGreaterThan`: `none` models the `-1` result. -/
def ColumnIndex.findFirstGreaterThan (ci : ColumnIndex) (v : Value) :
    Option Nat :=
  ci.findFirstGreaterThanGo v 0 ci.rows.length none

/-- `searchEqual`: slice from the first to the last index holding `value`
(`slice(first, last + 1)` is `drop first` then `take (last + 1 - first)`). -/
def ColumnIndex.searchEqual (ci : ColumnIndex) (v : Value) : List Row :=
  match ci.findFirstEqual v with
  | none => []
  | some first =>
    match ci.findLastEqual v with
    | none => []
    | some last => (ci.rows.drop first).take (last + 1 - first)

/-- `searchGreaterThan`: everything from the first index exceeding `value`. -/
def ColumnIndex.searchGreaterThan (ci : ColumnIndex) (v : Value) : List Row :=
  match ci.findFirstGreaterThan v with
  | none => []
  | some i => ci.rows.drop i

/-!
Loop-invariant correctness of the three binary searches.  The hypotheses
`Hlt`/`Hgt` say that "strictly below the operand" is downward closed and
"strictly above" upward closed along the index — exactly what the sorted
order of a constructed index provides.
-/

theorem ColumnIndex.findFirstEqualGo_spec (ci : ColumnIndex) (v : Value)
    (Hlt : ∀ i j, i ≤ j → j < ci.rows.length →
      oltv (ci.valueAt j) v = true → oltv (ci.valueAt i) v = true)
    (Hgt : ∀ i j, i ≤ j → j < ci.rows.length →
      ogtv (ci.valueAt i) v = true → ogtv (ci.valueAt j) v = true) :
    ∀ lo hi res, lo ≤ hi → hi ≤ ci.rows.length →
      (∀ j, j < lo → oltv (ci.valueAt j) v = true) →
      (match res with
       | none => ∀ j, hi ≤ j → j < ci.rows.length → ogtv (ci.valueAt j) v = true
       | some m => hi = m ∧ m < ci.rows.length ∧ oltv (ci.valueAt m) v = false ∧
           ogtv (ci.valueAt m) v = false) →
      (match ci.findFirstEqualGo v lo hi res with
       | none => ∀ j, j < ci.rows.length →
           oltv (ci.valueAt j) v = true ∨ ogtv (ci.valueAt j) v = true
       | some m => m < ci.rows.length ∧ oltv (ci.valueAt m) v = false ∧
           ogtv (ci.valueAt m) v = false ∧ ∀ j, j < m → oltv (ci.valueAt j) v = true) := by
  intro lo hi res
  induction lo, hi, res using ColumnIndex.findFirstEqualGo.induct ci v with
  | case1 lo hi res hlh mid hltv ih =>
    intro h1 h2 h3 h4
    have hmid : mid = (lo + hi - 1) / 2 := rfl
    rw [ColumnIndex.findFirstEqualGo]
    simp only [dif_pos hlh]
    rw [← hmid]
    simp only [hltv, if_pos]
    refine ih (by omega) h2 ?_ h4
    intro j hj
    exact Hlt j mid (by omega) (by omega) hltv
  | case2 lo hi res hlh mid hltv hgtv ih =>
    intro h1 h2 h3 h4
    have hmid : mid = (lo + hi - 1) / 2 := rfl
    rw [ColumnIndex.findFirstEqualGo]
    simp only [dif_pos hlh]
    rw [← hmid]
    simp only [hltv, hgtv, if_pos, if_neg, Bool.not_eq_true]
    refine ih (by omega) (by omega) h3 ?_
    cases res with
    | none =>
      intro j hj1 hj2
      exact Hgt mid j hj1 hj2 hgtv
    | some m =>
      exact absurd (Hgt mid m (by omega) h4.2.1 hgtv) (by simp [h4.2.2.2])
  | case3 lo hi res hlh mid hltv hgtv ih =>
    intro h1 h2 h3 h4
    have hmid : mid = (lo + hi - 1) / 2 := rfl
    rw [ColumnIndex.findFirstEqualGo]
    simp only [dif_pos hlh]
    rw [← hmid]
    simp only [hltv, hgtv, if_neg, Bool.not_eq_true]
    refine ih (by omega) (by omega) h3 ?_
    refine ⟨rfl, by omega, ?_, ?_⟩
    · simpa using hltv
    · simpa using hgtv
  | case4 lo hi res hlh =>
    intro h1 h2 h3 h4
    rw [ColumnIndex.findFirstEqualGo]
    simp only [dif_neg hlh]
    cases res with
    | none =>
      intro j hj
      by_cases hcase : j < lo
      · exact Or.inl (h3 j hcase)
      · exact Or.inr (h4 j (by omega) hj)
    | some m =>
      refine ⟨h4.2.1, h4.2.2.1, h4.2.2.2, ?_⟩
      intro j hj
      exact h3 j (by omega)

theorem ColumnIndex.findLastEqualGo_spec (ci : ColumnIndex) (v : Value)
    (Hlt : ∀ i j, i ≤ j → j < ci.rows.length →
      oltv (ci.valueAt j) v = true → oltv (ci.valueAt i) v = true)
    (Hgt : ∀ i j, i ≤ j → j < ci.rows.length →
      ogtv (ci.valueAt i) v = true → ogtv (ci.valueAt j) v = true) :
    ∀ lo hi res, lo ≤ hi → hi ≤ ci.rows.length →
      (∀ j, hi ≤ j → j < ci.rows.length → ogtv (ci.valueAt j) v = true) →
      (match res with
       | none => ∀ j, j < lo → oltv (ci.valueAt j) v = true
       | some m => lo = m + 1 ∧ m < ci.rows.length ∧ oltv (ci.valueAt m) v = false ∧
           ogtv (ci.valueAt m) v = false) →
      (match ci.findLastEqualGo v lo hi res with
       | none => ∀ j, j < ci.rows.length →
           oltv (ci.valueAt j) v = true ∨ ogtv (ci.valueAt j) v = true
       | some m => m < ci.rows.length ∧ oltv (ci.valueAt m) v = false ∧
           ogtv (ci.valueAt m) v = false ∧
           ∀ j, m < j → j < ci.rows.length → ogtv (ci.valueAt j) v = true) := by
  intro lo hi res
  induction lo, hi, res using ColumnIndex.findLastEqualGo.induct ci v with
  | case1 lo hi res hlh mid hltv ih =>
    intro h1 h2 h3 h4
    have hmid : mid = (lo + hi - 1) / 2 := rfl
    rw [ColumnIndex.findLastEqualGo]
    simp only [dif_pos hlh]
    rw [← hmid]
    simp only [hltv, if_pos]
    refine ih (by omega) h2 h3 ?_
    cases res with
    | none =>
      intro j hj
      exact Hlt j mid (by omega) (by omega) hltv
    | some m =>
      exact absurd (Hlt m mid (by omega) (by omega) hltv) (by simp [h4.2.2.1])
  | case2 lo hi res hlh mid hltv hgtv ih =>
    intro h1 h2 h3 h4
    have hmid : mid = (lo + hi - 1) / 2 := rfl
    rw [ColumnIndex.findLastEqualGo]
    simp only [dif_pos hlh]
    rw [← hmid]
    simp only [hltv, hgtv, if_pos, if_neg, Bool.not_eq_true]
    refine ih (by omega) (by omega) ?_ h4
    intro j hj1 hj2
    exact Hgt mid j hj1 hj2 hgtv
  | case3 lo hi res hlh mid hltv hgtv ih =>
    intro h1 h2 h3 h4
    have hmid : mid = (lo + hi - 1) / 2 := rfl
    rw [ColumnIndex.findLastEqualGo]
    simp only [dif_pos hlh]
    rw [← hmid]
    simp only [hltv, hgtv, if_neg, Bool.not_eq_true]
    refine ih (by omega) h2 h3 ?_
    refine ⟨rfl, by omega, ?_, ?_⟩
    · simpa using hltv
    · simpa using hgtv
  | case4 lo hi res hlh =>
    intro h1 h2 h3 h4
    rw [ColumnIndex.findLastEqualGo]
    simp only [dif_neg hlh]
    cases res with
    | none =>
      intro j hj
      by_cases hcase : j < lo
      · exact Or.inl (h4 j hcase)
      · exact Or.inr (h3 j (by omega) hj)
    | some m =>
      refine ⟨h4.2.1, h4.2.2.1, h4.2.2.2, ?_⟩
      intro j hj1 hj2
      exact h3 j (by omega) hj2

theorem ColumnIndex.findFirstGreaterThanGo_spec (ci : ColumnIndex) (v : Value)
    (Hgt : ∀ i j, i ≤ j → j < ci.rows.length →
      ogtv (ci.valueAt i) v = true → ogtv (ci.valueAt j) v = true) :
    ∀ lo hi res, lo ≤ hi → hi ≤ ci.rows.length →
      (∀ j, j < lo → ogtv (ci.valueAt j) v = false) →
      (match res with
       | none => hi = ci.rows.length
       | some m => hi = m ∧ m < ci.rows.length ∧ ogtv (ci.valueAt m) v = true) →
      (match ci.findFirstGreaterThanGo v lo hi res with
       | none => ∀ j, j < ci.rows.length → ogtv (ci.valueAt j) v = false
       | some m => m < ci.rows.length ∧ ogtv (ci.valueAt m) v = true ∧
           ∀ j, j < m → ogtv (ci.valueAt j) v = false) := by
  intro lo hi res
  induction lo, hi, res using ColumnIndex.findFirstGreaterThanGo.induct ci v with
  | case1 lo hi res hlh mid hgtv ih =>
    intro h1 h2 h3 h4
    have hmid : mid = (lo + hi - 1) / 2 := rfl
    rw [ColumnIndex.findFirstGreaterThanGo]
    simp only [dif_pos hlh]
    rw [← hmid]
    simp only [hgtv, if_pos]
    exact ih (by omega) (by omega) h3 ⟨rfl, by omega, hgtv⟩
  | case2 lo hi res hlh mid hgtv ih =>
    intro h1 h2 h3 h4
    have hmid : mid = (lo + hi - 1) / 2 := rfl
    rw [ColumnIndex.findFirstGreaterThanGo]
    simp only [dif_pos hlh]
    rw [← hmid]
    simp only [hgtv, if_neg, Bool.not_eq_true]
    refine ih (by omega) h2 ?_ h4
    intro j hj
    by_cases hgj : ogtv (ci.valueAt j) v = true
    · exact absurd (Hgt j mid (by omega) (by omega) hgj) (by simpa using hgtv)
    · simpa using hgj
  | case3 lo hi res hlh =>
    intro h1 h2 h3 h4
    rw [ColumnIndex.findFirstGreaterThanGo]
    simp only [dif_neg hlh]
    cases res with
    | none =>
      intro j hj
      exact h3 j (by omega)
    | some m =>
      refine ⟨h4.2.1, h4.2.2, ?_⟩
      intro j hj
      exact h3 j (by omega)

/-- The single-variant invariant a constructed table guarantees for each of
its columns: every record carries a value of the declared variant. -/
def ColumnOk (c : String) (ty : ColumnType) (rows : List Row) : Prop :=
  ∀ r ∈ rows, ∃ x, rowGet r c = some x ∧ x.typeOf = ty

theorem ColumnOk.of_perm {c ty} {rows rows' : List Row}
    (h : ColumnOk c ty rows) (hp : rows'.Perm rows) : ColumnOk c ty rows' :=
  fun r hr => h r (hp.mem_iff.mp hr)

theorem rowLe_total (c : String) (a b : Row) :
    rowLe c a b = true ∨ rowLe c b a = true := by
  by_cases h : cellLtB c b a = true
  · right
    unfold rowLe
    unfold cellLtB at h ⊢
    cases ha : rowGet a c with
    | none => simp [ha] at h
    | some x =>
      cases hb : rowGet b c with
      | none => simp [ha, hb] at h
      | some y =>
        simp only [ha, hb] at h ⊢
        simp [Value.ltAsymm h]
  · left
    unfold rowLe
    simp only [Bool.not_eq_true] at h
    simp [h]

theorem rowLe_trans {c : String} {ty : ColumnType} {a b d : Row}
    (ha : ∃ x, rowGet a c = some x ∧ x.typeOf = ty)
    (hb : ∃ x, rowGet b c = some x ∧ x.typeOf = ty)
    (hd : ∃ x, rowGet d c = some x ∧ x.typeOf = ty)
    (h1 : rowLe c a b = true) (h2 : rowLe c b d = true) :
    rowLe c a d = true := by
  obtain ⟨xa, hga, hta⟩ := ha
  obtain ⟨xb, hgb, htb⟩ := hb
  obtain ⟨xd, hgd, htd⟩ := hd
  unfold rowLe cellLtB at h1 h2 ⊢
  simp only [hga, hgb, hgd, Bool.not_eq_true'] at h1 h2 ⊢
  by_contra hcon
  simp only [Bool.not_eq_false] at hcon
  rcases Value.ltTotal (show xa.typeOf = xb.typeOf by rw [hta, htb]) with
    ht | ht | ht
  · have := Value.ltTrans hcon ht
    simp [this] at h2
  · simp [ht] at h1
  · rw [← ht] at h2
    simp [hcon] at h2

/-- The constructed index is sorted by the comparator's non-strict order. -/
theorem make_pairwise {c : String} {ty : ColumnType} {rows : List Row}
    (hok : ColumnOk c ty rows) :
    (ColumnIndex.make c rows).rows.Pairwise
      (fun a b => rowLe c a b = true) := by
  apply pairwise_stableSort
  · intro a b d hma hmb hmd h1 h2
    exact rowLe_trans (hok a hma) (hok b hmb) (hok d hmd) h1 h2
  · intro a b _ _
    exact rowLe_total c a b

theorem make_perm (c : String) (rows : List Row) :
    (ColumnIndex.make c rows).rows.Perm rows :=
  stableSort_perm (rowLe c) rows

/-- Every position of a constructed index holds a value of the declared
variant. -/
theorem make_valueAt {c : String} {ty : ColumnType} {rows : List Row}
    (hok : ColumnOk c ty rows) {i : Nat}
    (hi : i < (ColumnIndex.make c rows).rows.length) :
    ∃ x, (ColumnIndex.make c rows).valueAt i = some x ∧ x.typeOf = ty := by
  obtain ⟨x, hx, ht⟩ := hok ((ColumnIndex.make c rows).rows[i])
    ((make_perm c rows).mem_iff.mp (List.getElem_mem hi))
  refine ⟨x, ?_, ht⟩
  unfold ColumnIndex.valueAt
  rw [List.getElem?_eq_getElem hi]
  exact hx

/-- "Strictly below the operand" is downward closed along a constructed
index (the `Hlt` hypothesis of the loop specifications). -/
theorem make_Hlt {c : String} {ty : ColumnType} {rows : List Row}
    (hok : ColumnOk c ty rows) (v : Value) :
    ∀ i j, i ≤ j → j < (ColumnIndex.make c rows).rows.length →
      oltv ((ColumnIndex.make c rows).valueAt j) v = true →
      oltv ((ColumnIndex.make c rows).valueAt i) v = true := by
  intro i j hij hj hlt
  rcases Nat.eq_or_lt_of_le hij with h | h
  · rw [h]; exact hlt
  obtain ⟨xj, hxj, htj⟩ := make_valueAt hok hj
  obtain ⟨xi, hxi, hti⟩ := make_valueAt hok (lt_trans h hj)
  rw [hxj] at hlt
  rw [hxi]
  simp only [oltv] at hlt ⊢
  have hsor := (List.pairwise_iff_getElem.mp (make_pairwise hok)) i j
    (lt_trans h hj) hj h
  unfold rowLe cellLtB at hsor
  have hgi : rowGet ((ColumnIndex.make c rows).rows[i]) c = some xi := by
    have := hxi
    unfold ColumnIndex.valueAt at this
    rwa [List.getElem?_eq_getElem (lt_trans h hj)] at this
  have hgj : rowGet ((ColumnIndex.make c rows).rows[j]) c = some xj := by
    have := hxj
    unfold ColumnIndex.valueAt at this
    rwa [List.getElem?_eq_getElem hj] at this
  rw [hgi, hgj] at hsor
  simp only [Bool.not_eq_true'] at hsor
  rcases Value.ltTotal (show xi.typeOf = xj.typeOf by rw [hti, htj]) with
    ht | ht | ht
  · exact Value.ltTrans ht hlt
  · simp [ht] at hsor
  · rw [ht]; exact hlt

/-- "Strictly above the operand" is upward closed along a constructed index
(the `Hgt` hypothesis of the loop specifications). -/
theorem make_Hgt {c : String} {ty : ColumnType} {rows : List Row}
    (hok : ColumnOk c ty rows) (v : Value) :
    ∀ i j, i ≤ j → j < (ColumnIndex.make c rows).rows.length →
      ogtv ((ColumnIndex.make c rows).valueAt i) v = true →
      ogtv ((ColumnIndex.make c rows).valueAt j) v = true := by
  intro i j hij hj hgt
  rcases Nat.eq_or_lt_of_le hij with h | h
  · rw [← h]; exact hgt
  obtain ⟨xj, hxj, htj⟩ := make_valueAt hok hj
  obtain ⟨xi, hxi, hti⟩ := make_valueAt hok (lt_trans h hj)
  rw [hxi] at hgt
  rw [hxj]
  simp only [ogtv] at hgt ⊢
  have hsor := (List.pairwise_iff_getElem.mp (make_pairwise hok)) i j
    (lt_trans h hj) hj h
  unfold rowLe cellLtB at hsor
  have hgi : rowGet ((ColumnIndex.make c rows).rows[i]) c = some xi := by
    have := hxi
    unfold ColumnIndex.valueAt at this
    rwa [List.getElem?_eq_getElem (lt_trans h hj)] at this
  have hgj : rowGet ((ColumnIndex.make c rows).rows[j]) c = some xj := by
    have := hxj
    unfold ColumnIndex.valueAt at this
    rwa [List.getElem?_eq_getElem hj] at this
  rw [hgi, hgj] at hsor
  simp only [Bool.not_eq_true'] at hsor
  rcases Value.ltTotal (show xi.typeOf = xj.typeOf by rw [hti, htj]) with
    ht | ht | ht
  · exact Value.ltTrans hgt ht
  · simp [ht] at hsor
  · rw [← ht]; exact hgt

/-- At each in-range position, "neither strictly below nor strictly above
the operand" is exactly "holds the operand's value". -/
theorem make_eq_iff {c : String} {ty : ColumnType} {rows : List Row}
    (hok : ColumnOk c ty rows) {v : Value} (hv : v.typeOf = ty) {i : Nat}
    (hi : i < (ColumnIndex.make c rows).rows.length) :
    (oltv ((ColumnIndex.make c rows).valueAt i) v = false ∧
      ogtv ((ColumnIndex.make c rows).valueAt i) v = false) ↔
    (ColumnIndex.make c rows).valueAt i = some v := by
  obtain ⟨x, hx, ht⟩ := make_valueAt hok hi
  rw [hx]
  simp only [oltv, ogtv, Option.some.injEq]
  constructor
  · rintro ⟨h1, h2⟩
    rcases Value.ltTotal (show x.typeOf = v.typeOf by rw [ht, hv]) with
      h | h | h
    · simp [h] at h1
    · simp [h] at h2
    · exact h
  · intro h
    rw [h]
    simp [Value.ltIrrefl]

/-- When a boolean predicate holds exactly on the index interval `[a, b]`,
its `filter` is the corresponding contiguous slice. -/
theorem filter_eq_slice {l : List α} {p : α → Bool} {a b : Nat}
    (hab : a ≤ b) (hb : b < l.length)
    (hiff : ∀ i (h : i < l.length), p l[i] = true ↔ a ≤ i ∧ i ≤ b) :
    l.filter p = (l.drop a).take (b + 1 - a) := by
  have hsplit1 : l.filter p =
      (l.take a).filter p ++ (l.drop a).filter p := by
    conv_lhs => rw [← List.take_append_drop a l]
    exact List.filter_append _ _
  have htake : (l.take a).filter p = [] := by
    rw [List.filter_eq_nil_iff]
    intro x hx
    obtain ⟨i, hm, hix⟩ := List.mem_take_iff_getElem.mp hx
    have hia : i < a := lt_of_lt_of_le hm (min_le_left _ _)
    have hil : i < l.length := lt_of_lt_of_le hm (min_le_right _ _)
    intro hp
    rw [← hix] at hp
    exact absurd ((hiff i hil).mp hp).1 (by omega)
  have hsplit2 : (l.drop a).filter p =
      ((l.drop a).take (b + 1 - a)).filter p ++
        (l.drop (b + 1)).filter p := by
    conv_lhs => rw [← List.take_append_drop (b + 1 - a) (l.drop a)]
    rw [List.filter_append, List.drop_drop]
    congr 3
    omega
  have hmid : ((l.drop a).take (b + 1 - a)).filter p =
      (l.drop a).take (b + 1 - a) := by
    rw [List.filter_eq_self]
    intro x hx
    obtain ⟨i, hm, hix⟩ := List.mem_take_iff_getElem.mp hx
    have hi1 : i < b + 1 - a := lt_of_lt_of_le hm (min_le_left _ _)
    have hi2 : i < (l.drop a).length := lt_of_lt_of_le hm (min_le_right _ _)
    have hlen : a + i < l.length := by
      rw [List.length_drop] at hi2
      omega
    rw [← hix, List.getElem_drop]
    exact (hiff (a + i) hlen).mpr ⟨by omega, by omega⟩
  have hrest : (l.drop (b + 1)).filter p = [] := by
    rw [List.filter_eq_nil_iff]
    intro x hx
    obtain ⟨i, hm, hix⟩ := List.mem_iff_getElem.mp hx
    rw [← hix, List.getElem_drop]
    intro hp
    have hlen : b + 1 + i < l.length := by
      have := hm
      rw [List.length_drop] at this
      omega
    exact absurd ((hiff (b + 1 + i) hlen).mp hp).2 (by omega)
  rw [hsplit1, htake, hsplit2, hmid, hrest]
  simp

theorem ColumnIndex.valueAt_eq (ci : ColumnIndex) {i : Nat}
    (h : i < ci.rows.length) :
    ci.valueAt i = rowGet (ci.rows[i]) ci.column := by
  unfold ColumnIndex.valueAt
  rw [List.getElem?_eq_getElem h]

/-- `searchEqual` on a sorted index returns exactly the slice of rows whose
value in the indexed column equals the operand. -/
theorem ColumnIndex.searchEqual_spec (ci : ColumnIndex) (v : Value)
    (Hlt : ∀ i j, i ≤ j → j < ci.rows.length →
      oltv (ci.valueAt j) v = true → oltv (ci.valueAt i) v = true)
    (Hgt : ∀ i j, i ≤ j → j < ci.rows.length →
      ogtv (ci.valueAt i) v = true → ogtv (ci.valueAt j) v = true)
    (Heq : ∀ i, i < ci.rows.length →
      ((oltv (ci.valueAt i) v = false ∧ ogtv (ci.valueAt i) v = false) ↔
        ci.valueAt i = some v)) :
    ci.searchEqual v =
      ci.rows.filter (fun r => decide (rowGet r ci.column = some v)) := by
  have hfe := ci.findFirstEqualGo_spec v Hlt Hgt 0 ci.rows.length none
    (by omega) (le_refl _) (by intro j hj; omega) (by intro j hj1 hj2; omega)
  rw [show ci.findFirstEqualGo v 0 ci.rows.length none = ci.findFirstEqual v
    from rfl] at hfe
  cases hfirst : ci.findFirstEqual v with
  | none =>
    rw [hfirst] at hfe
    unfold ColumnIndex.searchEqual
    rw [hfirst]
    symm
    rw [List.filter_eq_nil_iff]
    intro r hr hp
    obtain ⟨i, hi, hieq⟩ := List.mem_iff_getElem.mp hr
    simp only [decide_eq_true_eq] at hp
    have hv : ci.valueAt i = some v := by
      rw [ci.valueAt_eq hi, hieq, hp]
    rcases hfe i hi with h | h
    · rw [hv] at h
      simp [oltv, Value.ltIrrefl] at h
    · rw [hv] at h
      simp [ogtv, Value.ltIrrefl] at h
  | some first =>
    rw [hfirst] at hfe
    obtain ⟨hfn, hfl, hfg, hbelow⟩ := hfe
    have hle := ci.findLastEqualGo_spec v Hlt Hgt 0 ci.rows.length none
      (by omega) (le_refl _) (by intro j hj1 hj2; omega) (by intro j hj; omega)
    rw [show ci.findLastEqualGo v 0 ci.rows.length none = ci.findLastEqual v
      from rfl] at hle
    cases hlast : ci.findLastEqual v with
    | none =>
      rw [hlast] at hle
      rcases hle first hfn with h | h
      · rw [hfl] at h
        exact absurd h (by simp)
      · rw [hfg] at h
        exact absurd h (by simp)
    | some last =>
      rw [hlast] at hle
      obtain ⟨hln, hll, hlg, habove⟩ := hle
      have hfle : first ≤ last := by
        by_contra hcon
        have : oltv (ci.valueAt last) v = true := hbelow last (by omega)
        rw [hll] at this
        exact absurd this (by simp)
      unfold ColumnIndex.searchEqual
      rw [hfirst, hlast]
      symm
      apply filter_eq_slice hfle hln
      intro i hi
      constructor
      · intro hp
        simp only [decide_eq_true_eq] at hp
        have hvi : ci.valueAt i = some v := by
          rw [ci.valueAt_eq hi, hp]
        constructor
        · by_contra hcon
          have hlt : oltv (ci.valueAt i) v = true := hbelow i (by omega)
          rw [hvi] at hlt
          simp [oltv, Value.ltIrrefl] at hlt
        · by_contra hcon
          have hgt : ogtv (ci.valueAt i) v = true := habove i (by omega) hi
          rw [hvi] at hgt
          simp [ogtv, Value.ltIrrefl] at hgt
      · rintro ⟨h1, h2⟩
        have hlt : oltv (ci.valueAt i) v = false := by
          by_contra hcon
          simp only [Bool.not_eq_false] at hcon
          have := Hlt first i h1 hi hcon
          rw [hfl] at this
          simp at this
        have hgt : ogtv (ci.valueAt i) v = false := by
          by_contra hcon
          simp only [Bool.not_eq_false] at hcon
          have := Hgt i last h2 hln hcon
          rw [hlg] at this
          simp at this
        have hvi := (Heq i hi).mp ⟨hlt, hgt⟩
        rw [ci.valueAt_eq hi] at hvi
        simp [hvi]

/-- `searchGreaterThan` on a sorted index returns the contiguous suffix of
rows whose value strictly exceeds the operand, which is also the `filter` of
the index by that condition. -/
theorem ColumnIndex.searchGreaterThan_spec (ci : ColumnIndex) (v : Value)
    (Hgt : ∀ i j, i ≤ j → j < ci.rows.length →
      ogtv (ci.valueAt i) v = true → ogtv (ci.valueAt j) v = true) :
    ci.searchGreaterThan v =
      ci.rows.filter (fun r => ogtv (rowGet r ci.column) v) ∧
    ∃ k, k ≤ ci.rows.length ∧ ci.searchGreaterThan v = ci.rows.drop k ∧
      (∀ j, j < k → ogtv (ci.valueAt j) v = false) ∧
      (∀ j, k ≤ j → j < ci.rows.length → ogtv (ci.valueAt j) v = true) := by
  have hsp := ci.findFirstGreaterThanGo_spec v Hgt 0 ci.rows.length none
    (by omega) (le_refl _) (by intro j hj; omega) rfl
  rw [show ci.findFirstGreaterThanGo v 0 ci.rows.length none =
    ci.findFirstGreaterThan v from rfl] at hsp
  cases hres : ci.findFirstGreaterThan v with
  | none =>
    rw [hres] at hsp
    constructor
    · unfold ColumnIndex.searchGreaterThan
      rw [hres]
      symm
      rw [List.filter_eq_nil_iff]
      intro r hr hp
      obtain ⟨i, hi, hieq⟩ := List.mem_iff_getElem.mp hr
      have := hsp i hi
      rw [ci.valueAt_eq hi, hieq] at this
      rw [this] at hp
      exact absurd hp (by simp)
    · refine ⟨ci.rows.length, le_refl _, ?_, ?_, ?_⟩
      · unfold ColumnIndex.searchGreaterThan
        rw [hres, List.drop_length]
      · exact fun j hj => hsp j hj
      · intro j hj1 hj2
        omega
  | some i =>
    rw [hres] at hsp
    obtain ⟨hin, hgi, hbelow⟩ := hsp
    have hall : ∀ j, i ≤ j → j < ci.rows.length →
        ogtv (ci.valueAt j) v = true :=
      fun j hj1 hj2 => Hgt i j hj1 hj2 hgi
    constructor
    · unfold ColumnIndex.searchGreaterThan
      rw [hres]
      symm
      have hslice := filter_eq_slice (l := ci.rows)
        (p := fun r => ogtv (rowGet r ci.column) v) (a := i)
        (b := ci.rows.length - 1) (by omega) (by omega) ?_
      · rw [hslice]
        have : ci.rows.length - 1 + 1 - i = (ci.rows.drop i).length := by
          rw [List.length_drop]
          omega
        rw [this, List.take_length]
      · intro j hj
        show ogtv (rowGet (ci.rows[j]) ci.column) v = true ↔
          i ≤ j ∧ j ≤ ci.rows.length - 1
        rw [← ci.valueAt_eq hj]
        constructor
        · intro hp
          refine ⟨?_, by omega⟩
          by_contra hcon
          have := hbelow j (by omega)
          rw [this] at hp
          exact absurd hp (by simp)
        · rintro ⟨h1, _⟩
          exact hall j h1 hj
    · refine ⟨i, by omega, ?_, ?_, hall⟩
      · unfold ColumnIndex.searchGreaterThan
        rw [hres]
      · exact hbelow

/-!  The `Database` class: loading, validation and the query pipeline. -/

/-- Error taxonomy: `DataError`, `QueryError`, and the plain `Error` thrown
by the filter dispatch's default branch. -/
inductive DbError where
  | data (msg : String)
  | query (msg : String)
  | plain (msg : String)
deriving DecidableEq

structure QueryFilter where
  column : String
  op : String
  value : Value
deriving DecidableEq

structure Query where
  columns : List String
  filter : Option QueryFilter
deriving DecidableEq

structure QueryResult where
  columns : List String
  rows : List Row
deriving DecidableEq

structure Table where
  columnTypes : List (String × ColumnType)
  columnIndices : List (String × ColumnIndex)
  rows : List Row
deriving DecidableEq

/-- `typeof row[c] === "string"`. -/
def isStringCell : Option Value → Bool
  | some (.str _) => true
  | _ => false

/-- `typeof row[c] === "number"`. -/
def isNumberCell : Option Value → Bool
  | some (.num _) => true
  | _ => false

/-- `buildColumnTypes`: per column, demand all-strings or all-numbers over
the full record list, else fail; columns are processed in order and the
first offending column aborts the whole construction. -/
def Database.buildColumnTypes (columns : List String) (rows : List Row) :
    Except DbError (List (String × ColumnType)) :=
  match columns with
  | [] => .ok []
  | c :: cs =>
    let allStrings := rows.all (fun row => isStringCell (rowGet row c))
    let allNumbers := rows.all (fun row => isNumberCell (rowGet row c))
    if !allStrings && !allNumbers then
      .error (.data ("Mixed types in column \"" ++ c ++ "\"."))
    else
      match Database.buildColumnTypes cs rows with
      | .ok rest =>
        .ok ((c, if allNumbers then ColumnType.number else ColumnType.string)
          :: rest)
      | .error e => .error e

def Database.buildColumnIndices (columns : List String) (rows : List Row) :
    List (String × ColumnIndex) :=
  columns.map (fun c => (c, ColumnIndex.make c rows))

/-- `loadData`, taking the tabular reader's output (the reader itself is an
external collaborator): reject an empty record list, infer column names
from the first record's keys, infer types, build indices. -/
def Database.loadData (rows : List Row) : Except DbError Table :=
  match rows with
  | [] => .error (.data "Loaded data must contain at least one row.")
  | r0 :: _ =>
    let columns := r0.map Prod.fst
    match Database.buildColumnTypes columns rows with
    | .ok types =>
      .ok { columnTypes := types,
            columnIndices := Database.buildColumnIndices columns rows,
            rows := rows }
    | .error e => .error e

/-- Result of the property read `columnTypes[k]` on the plain object
`this.columnTypes`: an own entry, an inherited `Object.prototype` member
(e.g. `toString` — a function, hence not `undefined`), or `undefined`. -/
inductive PropVal where
  | ct (t : ColumnType)
  | protoFn
  | undef
deriving DecidableEq

/-- Keys present on `Object.prototype`, inherited by every `{}` object. -/
def objectPrototypeKeys : List String :=
  ["constructor", "hasOwnProperty", "isPrototypeOf", "propertyIsEnumerable",
   "toLocaleString", "toString", "valueOf", "__defineGetter__",
   "__defineSetter__", "__lookupGetter__", "__lookupSetter__", "__proto__"]

def getProp (m : List (String × ColumnType)) (k : String) : PropVal :=
  match List.lookup k m with
  | some t => .ct t
  | none => if objectPrototypeKeys.contains k then .protoFn else .undef

def ColumnType.name : ColumnType → String
  | .string => "string"
  | .number => "number"

/-- The `for` loop of `validateQuery` over the projection columns:
`this.columnTypes[column] === undefined` → `QueryError`. -/
def Database.checkColumns (t : Table) : List String → Except DbError Unit
  | [] => .ok ()
  | c :: cs =>
    if getProp t.columnTypes c = PropVal.undef then
      .error (.query ("Unknown column: " ++ c))
    else Database.checkColumns t cs

/-- `validateQuery`: unknown-column checks for projection and filter, then
`columnTypes[filter.column] !== typeof filter.value` for the filter. -/
def Database.validateQuery (t : Table) (q : Query) : Except DbError Unit :=
  match Database.checkColumns t q.columns with
  | .error e => .error e
  | .ok _ =>
    match q.filter with
    | none => .ok ()
    | some f =>
      if getProp t.columnTypes f.column = PropVal.undef then
        .error (.query ("Unknown column: " ++ f.column))
      else if getProp t.columnTypes f.column ≠ PropVal.ct f.value.typeOf then
        .error (.query ("Invalid value type: " ++ f.value.typeOf.name))
      else .ok ()

/-- `filter`: dispatch on the operator to the column's index.  A missing
index (impossible for a validated query on a constructed table) would be a
`TypeError` at the method call; an unknown operator is the `default`
branch's plain `Error`. -/
def Database.filterRows (t : Table) (f : QueryFilter) :
    Except DbError (List Row) :=
  match f.op with
  | "=" =>
    match List.lookup f.column t.columnIndices with
    | some ci => .ok (ci.searchEqual f.value)
    | none => .error (.plain "TypeError: columnIndex is undefined")
  | ">" =>
    match List.lookup f.column t.columnIndices with
    | some ci => .ok (ci.searchGreaterThan f.value)
    | none => .error (.plain "TypeError: columnIndex is undefined")
  | other => .error (.plain ("Unknown filter operation: " ++ other))

/-- `acc[column] = value` on the object being built by `project`:
overwrite in place if the key exists, else append. -/
def setKey : Row → String → Value → Row
  | [], c, v => [(c, v)]
  | (k, w) :: r, c, v =>
    if k = c then (k, v) :: r else (k, w) :: setKey r c v

/-- One record of `project`'s output: copy the requested columns in order.
Copying an absent column (possible only through the prototype-lookup
validation gap) stores a non-`Value`; it is modelled as no entry. -/
def Database.projectRow (columns : List String) (r : Row) : Row :=
  columns.foldl
    (fun acc c =>
      match rowGet r c with
      | some v => setKey acc c v
      | none => acc)
    []

/-- `project`: map each surviving record to its projection. -/
def Database.project (rows : List Row) (columns : List String) : List Row :=
  rows.map (fun r => Database.projectRow columns r)

/-- The filter stage of `query`: the full record list when no filter clause
is present, else the index dispatch. -/
def Database.filterStage (t : Table) (q : Query) : Except DbError (List Row) :=
  match q.filter with
  | none => .ok t.rows
  | some f => Database.filterRows t f

/-- `query` on an already parsed structured query (the textual parser is an
external collaborator): validate, filter, project. -/
def Database.runQuery (t : Table) (q : Query) : Except DbError QueryResult :=
  match Database.validateQuery t q with
  | .error e => .error e
  | .ok _ =>
    match Database.filterStage t q with
    | .error e => .error e
    | .ok rows =>
      .ok { columns := q.columns, rows := Database.project rows q.columns }

/-- `query` with the receiver's state threaded explicitly: the method body
never assigns to any field of `this`, so the outgoing state is the incoming
table. -/
def Database.queryT (t : Table) (q : Query) :
    Except DbError QueryResult × Table :=
  (Database.runQuery t q, t)

/-!
The `cast` callback of `loadRows`: a cell matching `/^\d+$/` becomes
`parseInt(value, 10)`, anything else stays text.  `parseInt` yields a
JavaScript number — an IEEE-754 binary64 — so the mathematical integer
denoted by the digit string is rounded to 53 bits of significand
(round-to-nearest, ties-to-even), per the ECMAScript definition of the
number conversion.  Digit strings whose value stays below `2^53` are exact.
-/

/-- `/^\d+$/`: one or more ASCII decimal digits. -/
def isDigits (s : String) : Bool :=
  !s.isEmpty && s.toList.all (fun ch => ch.isDigit)

/-- The mathematical integer denoted by a digit string. -/
def digitsVal (s : String) : Nat :=
  s.toList.foldl (fun n ch => 10 * n + (ch.toNat - 48)) 0

/-- Number of halvings needed to bring `m` below `2^53` — for `m ≥ 2^53`
this is the exponent of one unit in the last place of the binary64
containing `m`'s binade (`fuel` only bounds the recursion). -/
def ulpExpAux : Nat → Nat → Nat
  | 0, _ => 0
  | fuel + 1, m => if m < 2 ^ 53 then 0 else ulpExpAux fuel (m / 2) + 1

def ulpExp (n : Nat) : Nat :=
  ulpExpAux n n

/-- Round a natural number to the nearest IEEE-754 binary64 value
(ties-to-even); valid below the binary64 overflow threshold, far beyond
every value used here. -/
def roundToDouble (n : Nat) : Nat :=
  if n < 2 ^ 53 then n
  else
    let e := ulpExp n
    let q := n / 2 ^ e
    let r := n % 2 ^ e
    let half := 2 ^ (e - 1)
    let q2 := if half < r || (decide (r = half) && decide (q % 2 = 1))
      then q + 1 else q
    q2 * 2 ^ e

/-- The `cast` option passed to the tabular reader in `loadRows`. -/
def castCell (s : String) : Value :=
  if isDigits s then Value.num (roundToDouble (digitsVal s)) else Value.str s

theorem roundToDouble_small {n : Nat} (h : n < 2 ^ 53) :
    roundToDouble n = n := by
  unfold roundToDouble
  rw [if_pos h]

theorem lookup_mem {β : Type} {k : String} {b : β} {l : List (String × β)}
    (h : List.lookup k l = some b) : (k, b) ∈ l := by
  induction l with
  | nil => simp [List.lookup] at h
  | cons p r ih =>
    rw [List.lookup] at h
    by_cases he : (k == p.1) = true
    · simp only [he] at h
      have hk : k = p.1 := by simpa using he
      have hb : b = p.2 := by
        injection h with h2
        rw [h2]
      rw [hk, hb]
      exact List.mem_cons_self _ _
    · simp only [Bool.not_eq_true] at he
      simp only [he] at h
      exact List.mem_cons_of_mem p (ih h)

theorem lookup_isSome_iff {β : Type} {k : String} {l : List (String × β)} :
    (List.lookup k l).isSome = true ↔ k ∈ l.map Prod.fst := by
  induction l with
  | nil => simp [List.lookup]
  | cons p r ih =>
    rw [List.lookup]
    by_cases he : (k == p.1) = true
    · simp only [he]
      have hk : k = p.1 := by simpa using he
      simp [hk]
    · simp only [Bool.not_eq_true] at he
      simp only [he]
      have hk : ¬k = p.1 := by simpa using he
      simp [hk, ih]

/-- A successful type inference certifies the single-variant invariant for
every inferred column. -/
theorem buildColumnTypes_ok {columns : List String} {rows : List Row}
    {types : List (String × ColumnType)}
    (h : Database.buildColumnTypes columns rows = .ok types) :
    (∀ c ty, (c, ty) ∈ types → ColumnOk c ty rows) ∧
    types.map Prod.fst = columns := by
  induction columns generalizing types with
  | nil =>
    rw [Database.buildColumnTypes] at h
    cases h
    exact ⟨by intro c ty hc; simp at hc, rfl⟩
  | cons c cs ih =>
    rw [Database.buildColumnTypes] at h
    by_cases hcond :
        (!rows.all (fun row => isStringCell (rowGet row c)) &&
          !rows.all (fun row => isNumberCell (rowGet row c))) = true
    · rw [if_pos hcond] at h
      cases h
    · rw [if_neg hcond] at h
      cases hrec : Database.buildColumnTypes cs rows with
      | error e => rw [hrec] at h; cases h
      | ok rest =>
        rw [hrec] at h
        cases h
        obtain ⟨ihok, ihkeys⟩ := ih hrec
        refine ⟨?_, by simp [ihkeys]⟩
        intro c' ty hmem
        rcases List.mem_cons.mp hmem with hmem | hmem
        · cases hmem
          by_cases hnum : rows.all (fun row => isNumberCell (rowGet row c)) = true
          · rw [if_pos hnum]
            intro r hr
            have hall := List.all_eq_true.mp hnum r hr
            cases hv : rowGet r c with
            | none => rw [hv] at hall; simp [isNumberCell] at hall
            | some x =>
              cases x with
              | str s => rw [hv] at hall; simp [isNumberCell] at hall
              | num n => exact ⟨.num n, rfl, rfl⟩
          · have hstr : rows.all (fun row => isStringCell (rowGet row c)) = true := by
              by_contra hcon
              apply hcond
              simp only [Bool.and_eq_true, Bool.not_eq_true']
              exact ⟨Bool.eq_false_iff.mpr hcon, Bool.eq_false_iff.mpr hnum⟩
            rw [if_neg hnum]
            intro r hr
            have hall := List.all_eq_true.mp hstr r hr
            cases hv : rowGet r c with
            | none => rw [hv] at hall; simp [isStringCell] at hall
            | some x =>
              cases x with
              | num n => rw [hv] at hall; simp [isStringCell] at hall
              | str s => exact ⟨.str s, rfl, rfl⟩
        · exact ihok c' ty hmem

/-- A column holding both a text and a numeric value makes type inference
fail (with some column's `DataError` — the first offender aborts). -/
theorem buildColumnTypes_mixed {columns : List String} {rows : List Row}
    {c : String} (hc : c ∈ columns)
    (hs : ∃ r ∈ rows, isStringCell (rowGet r c) = true)
    (hn : ∃ r ∈ rows, isNumberCell (rowGet r c) = true) :
    ∃ m, Database.buildColumnTypes columns rows = .error (.data m) := by
  induction columns with
  | nil => simp at hc
  | cons c' cs ih =>
    rw [Database.buildColumnTypes]
    by_cases hcond :
        (!rows.all (fun row => isStringCell (rowGet row c')) &&
          !rows.all (fun row => isNumberCell (rowGet row c'))) = true
    · rw [if_pos hcond]
      exact ⟨_, rfl⟩
    · rw [if_neg hcond]
      have hcs : c ∈ cs := by
        rcases List.mem_cons.mp hc with hh | hh
        · exfalso
          apply hcond
          obtain ⟨rs, hrs, hps⟩ := hs
          obtain ⟨rn, hrn, hpn⟩ := hn
          rw [← hh]
          simp only [Bool.and_eq_true, Bool.not_eq_true']
          constructor
          · by_cases hall : rows.all (fun row => isStringCell (rowGet row c)) = true
            · exfalso
              have hx := List.all_eq_true.mp hall rn hrn
              cases hv : rowGet rn c with
              | none => rw [hv] at hpn; simp [isNumberCell] at hpn
              | some x =>
                cases x with
                | str s => rw [hv] at hpn; simp [isNumberCell] at hpn
                | num n => rw [hv] at hx; simp [isStringCell] at hx
            · exact Bool.eq_false_iff.mpr hall
          · by_cases hall : rows.all (fun row => isNumberCell (rowGet row c)) = true
            · exfalso
              have hx := List.all_eq_true.mp hall rs hrs
              cases hv : rowGet rs c with
              | none => rw [hv] at hps; simp [isStringCell] at hps
              | some x =>
                cases x with
                | num n => rw [hv] at hps; simp [isStringCell] at hps
                | str s => rw [hv] at hx; simp [isNumberCell] at hx
            · exact Bool.eq_false_iff.mpr hall
        · exact hh
      obtain ⟨m, hm⟩ := ih hcs
      rw [hm]
      exact ⟨m, rfl⟩

/-- What a successful load guarantees: the table keeps the records, every
index is the stable-sorted index of its column over those records, every
inferred column type certifies the single-variant invariant, and types and
indices are keyed by the same column names. -/
theorem loadData_ok {rows : List Row} {t : Table}
    (h : Database.loadData rows = .ok t) :
    t.rows = rows ∧
    (∀ c ci, (c, ci) ∈ t.columnIndices → ci = ColumnIndex.make c rows) ∧
    (∀ c ty, (c, ty) ∈ t.columnTypes → ColumnOk c ty rows) ∧
    (∀ c, (List.lookup c t.columnTypes).isSome = true ↔
      (List.lookup c t.columnIndices).isSome = true) := by
  cases rows with
  | nil => rw [Database.loadData] at h; cases h
  | cons r0 rest =>
    rw [Database.loadData] at h
    cases htypes : Database.buildColumnTypes (r0.map Prod.fst) (r0 :: rest) with
    | error e => rw [htypes] at h; cases h
    | ok types =>
      rw [htypes] at h
      cases h
      obtain ⟨hok, hkeys⟩ := buildColumnTypes_ok htypes
      refine ⟨rfl, ?_, hok, ?_⟩
      · intro c ci hmem
        simp only [Database.buildColumnIndices, List.mem_map] at hmem
        obtain ⟨c', hc', heq⟩ := hmem
        cases heq
        rfl
      · intro c
        rw [lookup_isSome_iff, lookup_isSome_iff, hkeys]
        simp [Database.buildColumnIndices]

theorem checkColumns_cases (t : Table) (cols : List String) :
    Database.checkColumns t cols = .ok () ∨
    ∃ m, Database.checkColumns t cols = .error (.query m) := by
  induction cols with
  | nil => exact Or.inl rfl
  | cons c cs ih =>
    rw [Database.checkColumns]
    by_cases h : getProp t.columnTypes c = PropVal.undef
    · rw [if_pos h]
      exact Or.inr ⟨_, rfl⟩
    · rw [if_neg h]
      exact ih

/-- Every failure of `validateQuery` is a `QueryError`. -/
theorem validateQuery_error_kind {t : Table} {q : Query} {e : DbError}
    (h : Database.validateQuery t q = .error e) : ∃ m, e = .query m := by
  rw [Database.validateQuery] at h
  rcases checkColumns_cases t q.columns with hc | ⟨m, hc⟩
  · rw [hc] at h
    cases hq : q.filter with
    | none => rw [hq] at h; cases h
    | some f =>
      rw [hq] at h
      dsimp only [] at h
      by_cases h1 : getProp t.columnTypes f.column = PropVal.undef
      · rw [if_pos h1] at h
        cases h
        exact ⟨_, rfl⟩
      · rw [if_neg h1] at h
        by_cases h2 : getProp t.columnTypes f.column ≠ PropVal.ct f.value.typeOf
        · rw [if_pos h2] at h
          cases h
          exact ⟨_, rfl⟩
        · rw [if_neg h2] at h
          cases h
  · rw [hc] at h
    cases h
    exact ⟨m, rfl⟩

/-- A validated filter's column is an own schema key whose declared type is
the operand's type. -/
theorem validate_filter_type {t : Table} {q : Query} {f : QueryFilter}
    (h : Database.validateQuery t q = .ok ()) (hq : q.filter = some f) :
    List.lookup f.column t.columnTypes = some f.value.typeOf := by
  rw [Database.validateQuery] at h
  rcases checkColumns_cases t q.columns with hc | ⟨m, hc⟩
  · rw [hc, hq] at h
    dsimp only [] at h
    by_cases h1 : getProp t.columnTypes f.column = PropVal.undef
    · rw [if_pos h1] at h
      cases h
    · rw [if_neg h1] at h
      by_cases h2 : getProp t.columnTypes f.column ≠ PropVal.ct f.value.typeOf
      · rw [if_pos h2] at h
        cases h
      · simp only [Decidable.not_not] at h2
        rw [getProp] at h2
        cases hl : List.lookup f.column t.columnTypes with
        | none =>
          rw [hl] at h2
          dsimp only [] at h2
          by_cases hp : objectPrototypeKeys.contains f.column = true
          · rw [if_pos hp] at h2
            exact absurd h2 (by simp)
          · rw [if_neg hp] at h2
            exact absurd h2 (by simp)
        | some ty' =>
          rw [hl] at h2
          cases h2
          rfl
  · rw [hc] at h
    cases h

/-- On a constructed table, a filter over an own schema column with a valid
operator always dispatches successfully. -/
theorem filterRows_ok {rows : List Row} {t : Table} {f : QueryFilter}
    {ty : ColumnType} (h : Database.loadData rows = .ok t)
    (hty : List.lookup f.column t.columnTypes = some ty)
    (hop : f.op = "=" ∨ f.op = ">") :
    ∃ rs, Database.filterRows t f = .ok rs := by
  obtain ⟨_, _, _, hkeys⟩ := loadData_ok h
  have hsome : (List.lookup f.column t.columnIndices).isSome = true := by
    rw [← hkeys]
    rw [hty]
    rfl
  cases hci : List.lookup f.column t.columnIndices with
  | none => rw [hci] at hsome; cases hsome
  | some ci =>
    rcases hop with hop | hop <;>
      rw [Database.filterRows, hop, hci] <;> exact ⟨_, rfl⟩

/-- Stability of the index construction for the equal-value subsequence:
rows carrying one fixed value in the column keep their load order. -/
theorem make_filter_stable (c : String) (v : Value) (rows : List Row) :
    (ColumnIndex.make c rows).rows.filter
      (fun r => decide (rowGet r c = some v)) =
      rows.filter (fun r => decide (rowGet r c = some v)) := by
  apply filter_stableSort
  intro a b _ _ hpa hpb
  simp only [decide_eq_true_eq] at hpa hpb
  unfold rowLe cellLtB
  rw [hpa, hpb]
  simp [Value.ltIrrefl]

/-- `searchEqual` on a constructed index equals the load-order filter of the
records by equality with the operand. -/
theorem searchEqual_make {c : String} {ty : ColumnType} {rows : List Row}
    {v : Value} (hok : ColumnOk c ty rows) (hv : v.typeOf = ty) :
    (ColumnIndex.make c rows).searchEqual v =
      rows.filter (fun r => decide (rowGet r c = some v)) := by
  have hspec := ColumnIndex.searchEqual_spec (ColumnIndex.make c rows) v
    (make_Hlt hok v) (make_Hgt hok v)
    (fun i hi => make_eq_iff hok hv hi)
  rw [hspec]
  have hcol : (ColumnIndex.make c rows).column = c := rfl
  rw [hcol]
  exact make_filter_stable c v rows

/-- `searchGreaterThan` on a constructed index: the filter of the sorted
index, a permutation of the load-order filter, and the contiguous suffix
starting at the first index exceeding the operand. -/
theorem searchGreaterThan_make {c : String} {ty : ColumnType}
    {rows : List Row} (hok : ColumnOk c ty rows) (v : Value) :
    (ColumnIndex.make c rows).searchGreaterThan v =
      (ColumnIndex.make c rows).rows.filter
        (fun r => ogtv (rowGet r c) v) ∧
    ((ColumnIndex.make c rows).searchGreaterThan v).Perm
      (rows.filter (fun r => ogtv (rowGet r c) v)) ∧
    ∃ k, k ≤ (ColumnIndex.make c rows).rows.length ∧
      (ColumnIndex.make c rows).searchGreaterThan v =
        (ColumnIndex.make c rows).rows.drop k ∧
      (∀ j, j < k → ogtv ((ColumnIndex.make c rows).valueAt j) v = false) ∧
      (∀ j, k ≤ j → j < (ColumnIndex.make c rows).rows.length →
        ogtv ((ColumnIndex.make c rows).valueAt j) v = true) := by
  obtain ⟨h1, h2⟩ := ColumnIndex.searchGreaterThan_spec
    (ColumnIndex.make c rows) v (make_Hgt hok v)
  have hcol : (ColumnIndex.make c rows).column = c := rfl
  rw [hcol] at h1
  refine ⟨h1, ?_, h2⟩
  rw [h1]
  exact List.Perm.filter _ (make_perm c rows)

/-!  Concrete fixtures used by the witnesses. -/

def wRows : List Row :=
  [[("a", Value.num 3), ("b", Value.str "x")],
   [("a", Value.num 1), ("b", Value.str "y")],
   [("a", Value.num 3), ("b", Value.str "z")]]

def wTable : Table :=
  match Database.loadData wRows with
  | .ok t => t
  | .error _ => { columnTypes := [], columnIndices := [], rows := [] }

def bugRows : List Row :=
  [[("title", Value.str "Dune"), ("year", Value.num 1965)]]

def bugTable : Table :=
  match Database.loadData bugRows with
  | .ok t => t
  | .error _ => { columnTypes := [], columnIndices := [], rows := [] }

/-- C1: on a table built from a non-empty record set with a
single-variant-per-column schema, for an operand of the column's declared
variant, `searchEqual` returns exactly the records whose value in the
indexed column equals the operand — the empty list when none matches — and,
all results having equal values, their order is the original load order. -/
theorem claim_C1 (rows : List Row) (t : Table) (c : String)
    (ci : ColumnIndex) (ty : ColumnType) (v : Value)
    (h : Database.loadData rows = .ok t)
    (hci : List.lookup c t.columnIndices = some ci)
    (hty : List.lookup c t.columnTypes = some ty)
    (hv : v.typeOf = ty) :
    ci.searchEqual v = rows.filter (fun r => decide (rowGet r c = some v)) := by
  obtain ⟨hrows, hind, htys, hkeys⟩ := loadData_ok h
  have hmake := hind c ci (lookup_mem hci)
  have hok := htys c ty (lookup_mem hty)
  rw [hmake]
  exact searchEqual_make hok hv

theorem claim_C1_witness :
    (ColumnIndex.make "a" wRows).searchEqual (Value.num 3) =
      wRows.filter (fun r => decide (rowGet r "a" = some (Value.num 3))) :=
  claim_C1 wRows wTable "a" (ColumnIndex.make "a" wRows) ColumnType.number
    (Value.num 3) rfl rfl rfl rfl

/-- C2: on such a table, `searchGreaterThan` returns exactly the records
whose value strictly exceeds the operand (empty when none does), namely the
contiguous suffix of the ascending index starting at the first index whose
value exceeds the operand. -/
theorem claim_C2 (rows : List Row) (t : Table) (c : String)
    (ci : ColumnIndex) (ty : ColumnType) (v : Value)
    (h : Database.loadData rows = .ok t)
    (hci : List.lookup c t.columnIndices = some ci)
    (hty : List.lookup c t.columnTypes = some ty)
    (_hv : v.typeOf = ty) :
    ci.searchGreaterThan v =
      ci.rows.filter (fun r => ogtv (rowGet r c) v) ∧
    (ci.searchGreaterThan v).Perm
      (rows.filter (fun r => ogtv (rowGet r c) v)) ∧
    ∃ k, k ≤ ci.rows.length ∧ ci.searchGreaterThan v = ci.rows.drop k ∧
      (∀ j, j < k → ogtv (ci.valueAt j) v = false) ∧
      (∀ j, k ≤ j → j < ci.rows.length → ogtv (ci.valueAt j) v = true) := by
  obtain ⟨hrows, hind, htys, hkeys⟩ := loadData_ok h
  have hmake := hind c ci (lookup_mem hci)
  have hok := htys c ty (lookup_mem hty)
  rw [hmake]
  exact searchGreaterThan_make hok v

theorem claim_C2_witness :
    (ColumnIndex.make "a" wRows).searchGreaterThan (Value.num 2) =
      (ColumnIndex.make "a" wRows).rows.filter
        (fun r => ogtv (rowGet r "a") (Value.num 2)) :=
  (claim_C2 wRows wTable "a" (ColumnIndex.make "a" wRows) ColumnType.number
    (Value.num 2) rfl rfl rfl rfl).1

/-- C3: every column index of a constructed table is a permutation of the
full record list, has the table's record count as its length, is sorted
ascending by that column's value, and keeps the load order among rows with
equal values (stable sort). -/
theorem claim_C3 (rows : List Row) (t : Table) (c : String)
    (ci : ColumnIndex)
    (h : Database.loadData rows = .ok t)
    (hci : List.lookup c t.columnIndices = some ci) :
    ci.rows.length = t.rows.length ∧ ci.rows.Perm t.rows ∧
    ci.rows.Pairwise (fun a b => rowLe c a b = true) ∧
    (∀ v, ci.rows.filter (fun r => decide (rowGet r c = some v)) =
      t.rows.filter (fun r => decide (rowGet r c = some v))) := by
  obtain ⟨hrows, hind, htys, hkeys⟩ := loadData_ok h
  have hmake := hind c ci (lookup_mem hci)
  have hsome : (List.lookup c t.columnTypes).isSome = true := by
    rw [hkeys, hci]
    rfl
  cases hty : List.lookup c t.columnTypes with
  | none => rw [hty] at hsome; cases hsome
  | some ty =>
    have hok := htys c ty (lookup_mem hty)
    rw [hrows, hmake]
    refine ⟨(make_perm c rows).length_eq, make_perm c rows,
      make_pairwise hok, ?_⟩
    intro v
    exact make_filter_stable c v rows

theorem claim_C3_witness :
    (ColumnIndex.make "a" wRows).rows.length = wTable.rows.length ∧
    (ColumnIndex.make "a" wRows).rows.Perm wTable.rows :=
  ⟨(claim_C3 wRows wTable "a" (ColumnIndex.make "a" wRows) rfl rfl).1,
   (claim_C3 wRows wTable "a" (ColumnIndex.make "a" wRows) rfl rfl).2.1⟩

/-- C4: the claim says every projection or filter column name missing from
the schema — explicitly including names such as "toString" — raises
`QueryError`.  The code tests `columnTypes[column] === undefined` on a
plain object, and inherited `Object.prototype` members are not `undefined`,
so `PROJECT toString` passes validation and the query succeeds: the code
refutes the claim at that input. -/
theorem claim_C4 :
    Database.loadData bugRows = .ok bugTable ∧
    Database.validateQuery bugTable ⟨["toString"], none⟩ = .ok () ∧
    (Database.runQuery bugTable ⟨["toString"], none⟩).isOk = true := by
  exact ⟨rfl, rfl, rfl⟩

/-- C5: a filter whose column exists in the schema but whose operand
variant differs from the declared variant makes `query` fail with a
`QueryError` during validation, and the pipeline never reaches the index
search or projection (the returned error is the validation error). -/
theorem claim_C5 (rows : List Row) (t : Table) (q : Query) (f : QueryFilter)
    (ty : ColumnType)
    (_h : Database.loadData rows = .ok t)
    (hq : q.filter = some f)
    (hty : List.lookup f.column t.columnTypes = some ty)
    (hne : f.value.typeOf ≠ ty) :
    ∃ m, Database.validateQuery t q = .error (.query m) ∧
      Database.runQuery t q = .error (.query m) := by
  have hval : ∃ m, Database.validateQuery t q = .error (.query m) := by
    rw [Database.validateQuery]
    rcases checkColumns_cases t q.columns with hc | ⟨m, hc⟩
    · rw [hc, hq]
      dsimp only []
      have hgp : getProp t.columnTypes f.column = PropVal.ct ty := by
        rw [getProp, hty]
      rw [hgp]
      rw [if_neg (by simp)]
      have hcond : PropVal.ct ty ≠ PropVal.ct f.value.typeOf := by
        intro hcon
        injection hcon with hcon2
        exact hne hcon2.symm
      rw [if_pos hcond]
      exact ⟨_, rfl⟩
    · rw [hc]
      exact ⟨m, rfl⟩
  obtain ⟨m, hm⟩ := hval
  refine ⟨m, hm, ?_⟩
  rw [Database.runQuery, hm]

theorem claim_C5_witness :
    ∃ m, Database.validateQuery wTable
        ⟨["a"], some ⟨"a", "=", Value.str "zzz"⟩⟩ = .error (.query m) ∧
      Database.runQuery wTable
        ⟨["a"], some ⟨"a", "=", Value.str "zzz"⟩⟩ = .error (.query m) :=
  claim_C5 wRows wTable ⟨["a"], some ⟨"a", "=", Value.str "zzz"⟩⟩
    ⟨"a", "=", Value.str "zzz"⟩ ColumnType.number rfl rfl rfl
    (by decide)

/-- C6: construction fails with a `DataError` on an empty record list, and
fails with a `DataError` when some column of the schema holds both a text
and a numeric value across the records; in both cases no table is produced
(the constructor returns only the error). -/
theorem claim_C6 (rows : List Row) (r0 : Row) (c : String)
    (hhead : rows.head? = some r0)
    (hc : c ∈ r0.map Prod.fst)
    (hs : ∃ r ∈ rows, isStringCell (rowGet r c) = true)
    (hn : ∃ r ∈ rows, isNumberCell (rowGet r c) = true) :
    Database.loadData ([] : List Row) =
      .error (.data "Loaded data must contain at least one row.") ∧
    ∃ m, Database.loadData rows = .error (.data m) := by
  refine ⟨rfl, ?_⟩
  cases rows with
  | nil => cases hhead
  | cons r0' rest =>
    have hr : r0' = r0 := by
      rw [List.head?] at hhead
      injection hhead
    rw [← hr] at hc
    obtain ⟨m, hm⟩ := buildColumnTypes_mixed hc hs hn
    rw [Database.loadData, hm]
    exact ⟨m, rfl⟩

theorem claim_C6_witness :
    ∃ m, Database.loadData
      [[("a", Value.str "x")], [("a", Value.num 1)]] = .error (.data m) :=
  (claim_C6 [[("a", Value.str "x")], [("a", Value.num 1)]]
    [("a", Value.str "x")] "a" rfl (by decide)
    ⟨[("a", Value.str "x")], by decide, by decide⟩
    ⟨[("a", Value.num 1)], by decide, by decide⟩).2

/-- C7: for a valid query, the projection stage is a one-to-one, in-order
map over the records produced by the filter stage; with no filter clause
the filter stage yields the full record set in load order. -/
theorem claim_C7 (rows : List Row) (t : Table) (q : Query)
    (h : Database.loadData rows = .ok t)
    (hval : Database.validateQuery t q = .ok ())
    (hop : ∀ f, q.filter = some f → f.op = "=" ∨ f.op = ">") :
    ∃ fr, Database.filterStage t q = .ok fr ∧
      Database.runQuery t q =
        .ok ⟨q.columns, fr.map (fun r => Database.projectRow q.columns r)⟩ ∧
      (Database.project fr q.columns).length = fr.length ∧
      (q.filter = none → fr = t.rows) := by
  have hfs : ∃ fr, Database.filterStage t q = .ok fr ∧
      (q.filter = none → fr = t.rows) := by
    cases hq : q.filter with
    | none =>
      refine ⟨t.rows, ?_, fun _ => rfl⟩
      rw [Database.filterStage, hq]
    | some f =>
      obtain ⟨rs, hrs⟩ :=
        filterRows_ok h (validate_filter_type hval hq) (hop f hq)
      refine ⟨rs, ?_, ?_⟩
      · rw [Database.filterStage, hq]
        exact hrs
      · intro hnone
        exact Option.noConfusion hnone
  obtain ⟨fr, hfr, hnone⟩ := hfs
  refine ⟨fr, hfr, ?_, ?_, hnone⟩
  · rw [Database.runQuery, hval]
    dsimp only []
    rw [hfr]
    dsimp only []
    rw [Database.project]
  · rw [Database.project, List.length_map]

theorem claim_C7_witness :
    ∃ fr, Database.filterStage wTable ⟨["b"], none⟩ = .ok fr ∧
      Database.runQuery wTable ⟨["b"], none⟩ =
        .ok ⟨["b"], fr.map (fun r => Database.projectRow ["b"] r)⟩ ∧
      (Database.project fr ["b"]).length = fr.length ∧
      ((⟨["b"], none⟩ : Query).filter = none → fr = wTable.rows) :=
  claim_C7 wRows wTable ⟨["b"], none⟩ rfl rfl
    (fun _f hf => nomatch hf)

/-- C8: the query path never assigns to the table's state, so with the
receiver threaded explicitly the outgoing table is the incoming one and a
repeated identical query returns the identical result. -/
theorem claim_C8 (t : Table) (q : Query) :
    (Database.queryT t q).2 = t ∧
    (Database.queryT t q).1 = (Database.queryT (Database.queryT t q).2 q).1 :=
  ⟨rfl, rfl⟩

/-- C9 counterexample: the cell "9007199254740993" (2^53 + 1) consists only
of decimal digits and denotes an integer representable in 64-bit signed
range, yet `parseInt` yields the binary64 value 9007199254740992, so the
stored Integer value does not exactly equal the denoted integer. -/
theorem claim_C9_counterexample :
    isDigits "9007199254740993" = true ∧
    digitsVal "9007199254740993" = 9007199254740993 ∧
    castCell "9007199254740993" = Value.num 9007199254740992 ∧
    castCell "9007199254740993" ≠
      Value.num (Int.ofNat (digitsVal "9007199254740993")) := by
  exact ⟨by decide, by decide, by decide, by decide⟩

/-- C9 (amended): a cell of decimal digits is classified as Integer holding
the denoted integer rounded to the nearest binary64 (ties to even) — hence
exactly the denoted integer whenever it is below 2^53 — and every other
cell is classified as Text. -/
theorem claim_C9 (s : String) :
    (isDigits s = true →
      castCell s = Value.num (Int.ofNat (roundToDouble (digitsVal s)))) ∧
    (isDigits s = true → digitsVal s < 2 ^ 53 →
      castCell s = Value.num (Int.ofNat (digitsVal s))) ∧
    (isDigits s = false → castCell s = Value.str s) := by
  refine ⟨?_, ?_, ?_⟩
  · intro hd
    rw [castCell, if_pos hd]
    rfl
  · intro hd hlt
    rw [castCell, if_pos hd, roundToDouble_small hlt]
    rfl
  · intro hd
    rw [castCell, if_neg (by simp [hd])]

theorem claim_C9_witness :
    castCell "42" = Value.num (Int.ofNat (digitsVal "42")) ∧
    castCell "abc" = Value.str "abc" :=
  ⟨(claim_C9 "42").2.1 (by decide) (by decide),
   (claim_C9 "abc").2.2 (by decide)⟩

/-- C10: for a query that passed validation and carries a filter whose
operator is one of the two the grammar can produce, the filter dispatch
never reaches its default branch (it returns a record list), and after a
successful parse `query` either succeeds or fails with a `QueryError`,
never with the default branch's plain `Error`. -/
theorem claim_C10 (rows : List Row) (t : Table) (q : Query)
    (f : QueryFilter)
    (h : Database.loadData rows = .ok t)
    (hq : q.filter = some f)
    (hop : f.op = "=" ∨ f.op = ">") :
    ((Database.runQuery t q).isOk = true ∨
      ∃ m, Database.runQuery t q = .error (.query m)) ∧
    (Database.validateQuery t q = .ok () →
      ∃ rs, Database.filterRows t f = .ok rs) := by
  have hfil : Database.validateQuery t q = .ok () →
      ∃ rs, Database.filterRows t f = .ok rs := by
    intro hval
    exact filterRows_ok h (validate_filter_type hval hq) hop
  refine ⟨?_, hfil⟩
  cases hval : Database.validateQuery t q with
  | error e =>
    obtain ⟨m, hm⟩ := validateQuery_error_kind hval
    right
    refine ⟨m, ?_⟩
    rw [Database.runQuery, hval, hm]
  | ok u =>
    cases u
    left
    obtain ⟨rs, hrs⟩ := hfil hval
    rw [Database.runQuery, hval]
    dsimp only []
    rw [Database.filterStage, hq]
    dsimp only []
    rw [hrs]
    rfl

theorem claim_C10_witness :
    ((Database.runQuery wTable
        ⟨["a"], some ⟨"a", ">", Value.num 1⟩⟩).isOk = true ∨
      ∃ m, Database.runQuery wTable
        ⟨["a"], some ⟨"a", ">", Value.num 1⟩⟩ = .error (.query m)) ∧
    (Database.validateQuery wTable ⟨["a"], some ⟨"a", ">", Value.num 1⟩⟩ =
        .ok () →
      ∃ rs, Database.filterRows wTable ⟨"a", ">", Value.num 1⟩ = .ok rs) :=
  claim_C10 wRows wTable ⟨["a"], some ⟨"a", ">", Value.num 1⟩⟩
    ⟨"a", ">", Value.num 1⟩ rfl rfl (Or.inr rfl)

end MiniDb
